import Mathlib

/-!
Shallow embedding of `simplept.cpp`, a Monte Carlo path tracer over a fixed
scene of eight spheres.  Doubles are modelled as exact reals; the global RNG
is modelled as an explicit stream of uniform variates threaded through every
function that draws from it; the probabilistically terminating mutual
recursion of the radiance estimator is made total with an explicit fuel
parameter (fuel `0` returns black, a case the C++ code never reaches in
finite executions).
-/

open scoped Classical

noncomputable section

/-- Constant `PI` exactly as the source defines it
(`#define PI 3.1415926535897932384626433832795`). -/
def PI : ℝ := 3.1415926535897932384626433832795

/-- The RNG stream: position `k` holds the `k`-th uniform variate that
`rng()` will return. -/
def Rng : Type := ℕ → ℝ

/-- Drawing from the stream (`rng()`): returns the front variate and the
advanced stream. -/
def draw (g : Rng) : ℝ × Rng := (g 0, fun k => g (k+1))

/-- 3D vector of doubles (`struct Vec`). -/
@[ext]
structure Vec where
  x : ℝ
  y : ℝ
  z : ℝ

instance : Add Vec := ⟨fun a b => ⟨a.x + b.x, a.y + b.y, a.z + b.z⟩⟩

instance : Sub Vec := ⟨fun a b => ⟨a.x - b.x, a.y - b.y, a.z - b.z⟩⟩

instance : HMul Vec ℝ Vec := ⟨fun a b => ⟨a.x * b, a.y * b, a.z * b⟩⟩

/-- Default-constructed `Vec()`, the zero color / zero vector. -/
def Vec.zero : Vec := ⟨0, 0, 0⟩

/-- Component-wise product (`Vec::mult`). -/
def Vec.mult (a b : Vec) : Vec := ⟨a.x * b.x, a.y * b.y, a.z * b.z⟩

/-- Dot product (`Vec::dot`). -/
def Vec.dot (a b : Vec) : ℝ := a.x * b.x + a.y * b.y + a.z * b.z

/-- Cross product (`Vec::cross`). -/
def Vec.cross (a b : Vec) : Vec :=
  ⟨a.y * b.z - a.z * b.y, a.z * b.x - a.x * b.z, a.x * b.y - a.y * b.x⟩

/-- Normalization (`Vec::normalize`): scale by the reciprocal square root of
the sum of squared components. -/
def Vec.normalize (v : Vec) : Vec :=
  v * (1 / Real.sqrt (v.x * v.x + v.y * v.y + v.z * v.z))

/-- Component-wise equality test (`Vec::operator==`). -/
def Vec.eqv (a b : Vec) : Prop := a.x = b.x ∧ a.y = b.y ∧ a.z = b.z

/-- Ray with origin and direction (`struct Ray`). -/
structure Ray where
  o : Vec
  d : Vec

/-- The closed set of reflectance models: ideal diffuse (`DiffuseBRDF`) and
ideal specular (`SpecularBRDF`), each carrying its reflectance color. -/
inductive BRDF where
  | diffuse (kd : Vec)
  | specular (ks : Vec)

/-- Sphere primitive (`struct Sphere`): position, emitted radiance, radius
and reflectance model. -/
structure Sphere where
  p : Vec
  e : Vec
  rad : ℝ
  brdf : BRDF

/-- Clamp to `[0,1]` (`clamp`). -/
def clamp (x : ℝ) : ℝ := if x < 0 then 0 else if x > 1 then 1 else x

/-- Pixel encoding (`toInt`): `static_cast<int>(pow(clamp(x),1.0/2.2)*255+.5)`.
The argument of the cast is nonnegative, so the C truncation toward zero is
the floor. -/
def toInt (x : ℝ) : ℤ := ⌊clamp x ^ ((1:ℝ)/2.2) * 255 + 0.5⌋

/-- Self-intersection epsilon used by `Sphere::intersect`. -/
def eps : ℝ := 1e-4

/-- Ray-sphere intersection (`Sphere::intersect`): returns the selected root
`b ± sqrt(det)` or `0` for no hit. -/
def Sphere.intersect (s : Sphere) (r : Ray) : ℝ :=
  let op := s.p - r.o
  let b := op.dot r.d
  let det := b * b - op.dot op + s.rad * s.rad
  if det < 0 then 0
  else
    let dt := Real.sqrt det
    if b - dt > eps then b - dt else if b + dt > eps then b + dt else 0

/-- Local orthonormal frame around a normal (`createLocalCoord`). -/
def createLocalCoord (n : Vec) : Vec × Vec × Vec :=
  let w := n
  let u := ((if |w.x| > 0.1 then (⟨0, 1, 0⟩ : Vec) else ⟨1, 0, 0⟩).cross w).normalize
  let v := w.cross u
  (u, v, w)

/-- Mirror reflection of `o` about `n` (`mirroredDirection`). -/
def mirroredDirection (n o : Vec) : Vec := n * n.dot o * (2:ℝ) - o

/-- BRDF evaluation (`DiffuseBRDF::eval` and `SpecularBRDF::eval`). -/
def BRDF.eval : BRDF → Vec → Vec → Vec → Vec
  | .diffuse kd, _, _, _ => kd * (1 / PI)
  | .specular ks, n, o, i =>
      if Vec.eqv i (mirroredDirection n o) then ks * (1 / n.dot i) else Vec.zero

/-- BRDF importance sampling (`DiffuseBRDF::sample` and
`SpecularBRDF::sample`): returns the sampled incoming direction, the density,
and the advanced RNG stream. -/
def BRDF.sample : BRDF → Vec → Vec → Rng → Vec × ℝ × Rng
  | .diffuse _, n, _, g =>
      let d1 := draw g
      let d2 := draw d1.2
      let z := Real.sqrt d1.1
      let r := Real.sqrt (1 - z * z)
      let phi := 2 * PI * d2.1
      let xx := r * Real.cos phi
      let yy := r * Real.sin phi
      let uvw := createLocalCoord n
      let i := (uvw.1 * xx + uvw.2.1 * yy + uvw.2.2 * z).normalize
      (i, n.dot i / PI, d2.2)
  | .specular _, n, o, g => (mirroredDirection n o, 1, g)

/-- Predefined BRDF `leftWall`. -/
def leftWall : BRDF := .diffuse ⟨0.75, 0.25, 0.25⟩

/-- Predefined BRDF `rightWall`. -/
def rightWall : BRDF := .diffuse ⟨0.25, 0.25, 0.75⟩

/-- Predefined BRDF `otherWall`. -/
def otherWall : BRDF := .diffuse ⟨0.75, 0.75, 0.75⟩

/-- Predefined BRDF `blackSurf`. -/
def blackSurf : BRDF := .diffuse ⟨0, 0, 0⟩

/-- Predefined BRDF `brightSurf`. -/
def brightSurf : BRDF := .diffuse ⟨0.9, 0.9, 0.9⟩

/-- Predefined BRDF `brightSurf_s` (the specular ball). -/
def brightSurf_s : BRDF := .specular ⟨0.999, 0.999, 0.999⟩

/-- The fixed scene (`spheres[]`): five walls, two balls and the light. -/
def spheres : List Sphere :=
  [⟨⟨1e5 + 1, 40.8, 81.6⟩, Vec.zero, 1e5, leftWall⟩,
   ⟨⟨-1e5 + 99, 40.8, 81.6⟩, Vec.zero, 1e5, rightWall⟩,
   ⟨⟨50, 40.8, 1e5⟩, Vec.zero, 1e5, otherWall⟩,
   ⟨⟨50, 1e5, 81.6⟩, Vec.zero, 1e5, otherWall⟩,
   ⟨⟨50, -1e5 + 81.6, 81.6⟩, Vec.zero, 1e5, otherWall⟩,
   ⟨⟨27, 16.5, 47⟩, Vec.zero, 16.5, brightSurf⟩,
   ⟨⟨73, 16.5, 78⟩, Vec.zero, 16.5, brightSurf_s⟩,
   ⟨⟨50, 70, 81.6⟩, ⟨50, 50, 50⟩, 5, blackSurf⟩]

/-- Array access `spheres[i]`. -/
def sphereAt (i : ℕ) : Sphere := spheres.getD i ⟨Vec.zero, Vec.zero, 0, blackSurf⟩

/-- The scan `for (int i = int(n); i--;)` of the global `intersect`: the
state `(t, j)` holds the best distance and its sphere index; sphere `k-1` is
tested first when the counter is `k`. -/
def intersectLoop (r : Ray) : ℕ → ℝ → ℕ → ℝ × ℕ
  | 0, t, j => (t, j)
  | k+1, t, j =>
      let d := (sphereAt k).intersect r
      if d ≠ 0 ∧ d < t then intersectLoop r k d k else intersectLoop r k t j

/-- Scene-level intersection (global `intersect`): `j0` models the value the
out-parameter `id` holds on entry (uninitialized or `0` at call sites). -/
def intersect (r : Ray) (j0 : ℕ) : ℝ × ℕ := intersectLoop r 8 1e20 j0

/-- The boolean result `t < inf` of the global `intersect`. -/
def intersectHit (r : Ray) (j0 : ℕ) : Prop := (intersect r j0).1 < 1e20

/-- Emitted radiance of a sphere (`emittedRadiance`). -/
def emittedRadiance (obj : Sphere) : Vec := obj.e

/-- Uniform-area sampling of a sphere surface (`luminaireSample`): returns
the sampled point, its outward normal, the density, and the advanced RNG
stream. -/
def luminaireSample (obj : Sphere) (g : Rng) : Vec × Vec × ℝ × Rng :=
  let d1 := draw g
  let d2 := draw d1.2
  let z := 2 * d1.1 - 1
  let xx := Real.sqrt (1 - z * z) * Real.cos (2 * PI * d2.1)
  let yy := Real.sqrt (1 - z * z) * Real.sin (2 * PI * d2.1)
  let n : Vec := ⟨xx, yy, z⟩
  (obj.p + n * obj.rad, n, 1 / (4 * PI * obj.rad * obj.rad), d2.2)

/-- Next-event estimation (`directedRadiance`): one shadow ray toward a
point sampled on the light `spheres[7]`. -/
def directedRadiance (x o : Vec) (obj : Sphere) (flag : Bool) (g : Rng) :
    Vec × Rng :=
  let n0 := (x - obj.p).normalize
  let n := if n0.dot o < 0 then n0 * (-1 : ℝ) else n0
  let obj_l := sphereAt 7
  let ls := luminaireSample obj_l g
  let x_l := ls.1
  let n_l := ls.2.1
  let pdf_l := ls.2.2.1
  let i := (x_l - x).normalize
  let disXtoXl := (x_l - x).dot (x_l - x)
  let t := (intersect (Ray.mk x i) 0).1
  let x_hit := x + i * t
  if (x_hit - x_l).dot (x_hit - x_l) < 0.0001 then
    ((emittedRadiance obj_l).mult (obj.brdf.eval n o i) * n.dot i *
       n_l.dot (Vec.zero - i) * (1 / (disXtoXl * pdf_l)), ls.2.2.2)
  else (Vec.zero, ls.2.2.2)

mutual

/-- Radiance received along a ray (`receivedRadiance`): zero on a miss,
otherwise emitted plus reflected radiance at the hit point. -/
def receivedRadiance : ℕ → Ray → ℤ → Bool → Rng → Vec × Rng
  | 0, _, _, _, g => (Vec.zero, g)
  | fuel+1, r, depth, flag, g =>
      let pr := intersect r 0
      if pr.1 < 1e20 then
        let obj := sphereAt pr.2
        let x := r.o + r.d * pr.1
        let o := (Vec.zero - r.d).normalize
        let rr := reflectedRadiance fuel x o obj depth flag g
        (emittedRadiance obj + rr.1, rr.2)
      else (Vec.zero, g)
termination_by fuel => 3 * fuel

/-- Reflected radiance (`reflectedRadiance`): direct plus indirect. -/
def reflectedRadiance : ℕ → Vec → Vec → Sphere → ℤ → Bool → Rng → Vec × Rng
  | fuel, x, o, obj, depth, flag, g =>
      let dr := directedRadiance x o obj flag g
      let ir := indirectedRadiance fuel x o obj depth flag dr.2
      (dr.1 + ir.1, ir.2)
termination_by fuel => 3 * fuel + 2

/-- Indirect radiance with Russian roulette (`indirectedRadiance`). -/
def indirectedRadiance : ℕ → Vec → Vec → Sphere → ℤ → Bool → Rng → Vec × Rng
  | fuel, x, o, obj, depth, flag, g =>
      let p : ℝ := if depth ≤ 5 then 1 else 0.9
      let dg := draw g
      if dg.1 > p then (Vec.zero, dg.2)
      else
        let n0 := (x - obj.p).normalize
        let n := if n0.dot o < 0 then n0 * (-1 : ℝ) else n0
        let sp := obj.brdf.sample n o dg.2
        let rv := receivedRadiance fuel (Ray.mk x sp.1) (depth + 1) flag sp.2.2
        (rv.1.mult (obj.brdf.eval n o sp.1) * n.dot sp.1 * (1 / (sp.2.1 * p)), rv.2)
termination_by fuel => 3 * fuel + 1

end

/-- The plain-text image file written by `main`: tag `"P3"`, width, height,
maximum channel value, then the flattened pixel triplets. -/
structure PPMImage where
  tag : String
  width : ℕ
  height : ℕ
  maxval : ℕ
  pixels : List ℤ

/-- Serialization of the accumulated buffer `c` as `main` performs it:
header `P3 480 360 255` followed by `toInt` of every channel. -/
def outputPPM (c : List Vec) : PPMImage :=
  { tag := "P3", width := 480, height := 360, maxval := 255,
    pixels := c.flatMap fun v => [toInt v.x, toInt v.y, toInt v.z] }

/-- Accumulation loop of the C standard library `atoi` over a digit prefix
(modelled at the external interface boundary). -/
def atoiLoop : List Char → ℤ → ℤ
  | [], acc => acc
  | c :: cs, acc =>
      if c.isDigit then atoiLoop cs (acc * 10 + ((c.toNat : ℤ) - 48)) else acc

/-- The C standard library `atoi` (modelled at the external interface
boundary): skip leading whitespace, read an optional sign and a digit
prefix; `0` when no digits are present. -/
def atoi (s : String) : ℤ :=
  let cs := s.toList.dropWhile Char.isWhitespace
  match cs with
  | '-' :: rest => - atoiLoop rest 0
  | '+' :: rest => atoiLoop rest 0
  | _ => atoiLoop cs 0

/-- Per-subpixel sample count computed by `main`:
`samps = argc==2 ? atoi(argv[1])/4 : 1`, with the C `/` truncating toward
zero.  The argument is `some s` when exactly one command-line argument `s`
is given, `none` otherwise. -/
def samps (arg : Option String) : ℤ :=
  match arg with
  | some s => Int.tdiv (atoi s) 4
  | none => 1

/-- The quadratic of the ray-sphere test exactly as the specification
states it: `t²(d·d) + 2t(o−p)·d + (o−p)·(o−p) − r² = 0`. -/
def isRoot (s : Sphere) (r : Ray) (t : ℝ) : Prop :=
  t^2 * r.d.dot r.d + 2 * t * ((r.o - s.p).dot r.d) +
    (r.o - s.p).dot (r.o - s.p) - s.rad^2 = 0

end

section Helpers

@[simp] theorem Vec.add_x (a b : Vec) : (a + b).x = a.x + b.x := rfl

@[simp] theorem Vec.add_y (a b : Vec) : (a + b).y = a.y + b.y := rfl

@[simp] theorem Vec.add_z (a b : Vec) : (a + b).z = a.z + b.z := rfl

@[simp] theorem Vec.sub_x (a b : Vec) : (a - b).x = a.x - b.x := rfl

@[simp] theorem Vec.sub_y (a b : Vec) : (a - b).y = a.y - b.y := rfl

@[simp] theorem Vec.sub_z (a b : Vec) : (a - b).z = a.z - b.z := rfl

@[simp] theorem Vec.smul_x (a : Vec) (c : ℝ) : (a * c).x = a.x * c := rfl

@[simp] theorem Vec.smul_y (a : Vec) (c : ℝ) : (a * c).y = a.y * c := rfl

@[simp] theorem Vec.smul_z (a : Vec) (c : ℝ) : (a * c).z = a.z * c := rfl

@[simp] theorem Vec.mult_x (a b : Vec) : (a.mult b).x = a.x * b.x := rfl

@[simp] theorem Vec.mult_y (a b : Vec) : (a.mult b).y = a.y * b.y := rfl

@[simp] theorem Vec.mult_z (a b : Vec) : (a.mult b).z = a.z * b.z := rfl

@[simp] theorem Vec.zero_x : Vec.zero.x = 0 := rfl

@[simp] theorem Vec.zero_y : Vec.zero.y = 0 := rfl

@[simp] theorem Vec.zero_z : Vec.zero.z = 0 := rfl

end Helpers

/-- C1: the indirect-radiance estimate uses survival probability `1.0` for
`depth ≤ 5` and `0.9` otherwise, returns zero when the drawn variate exceeds
it, and otherwise scales the recursive estimate at `depth+1` along the
sampled bounce ray by `eval(n,o,i)·(n·i)/(pdf·p)`. -/
theorem indirect_russian_roulette (fuel : ℕ) (x o : Vec) (obj : Sphere)
    (depth : ℤ) (flag : Bool) (g : Rng) :
    indirectedRadiance fuel x o obj depth flag g =
      if (draw g).1 > (if depth ≤ 5 then (1:ℝ) else 0.9) then
        (Vec.zero, (draw g).2)
      else
        let n0 := (x - obj.p).normalize
        let n := if n0.dot o < 0 then n0 * (-1 : ℝ) else n0
        let sp := obj.brdf.sample n o (draw g).2
        let rv := receivedRadiance fuel (Ray.mk x sp.1) (depth + 1) flag sp.2.2
        (rv.1.mult (obj.brdf.eval n o sp.1) *
          (n.dot sp.1 / (sp.2.1 * (if depth ≤ 5 then (1:ℝ) else 0.9))), rv.2) := by
  rw [indirectedRadiance]
  split <;> split <;> try rfl
  all_goals
    simp only [Prod.mk.injEq, and_true]
    ext <;> simp only [Vec.smul_x, Vec.smul_y, Vec.smul_z] <;> ring

/-- C2: the direct-lighting term samples the light sphere, shoots a shadow
ray from `x` toward the sampled point, and contributes
`Le·eval(n,o,i)·(n·i)·(n_l·(−i))/(d²·pdf_light)` exactly when the shadow
ray's nearest hit point lies within squared distance `1e-4` of the sampled
light point, and zero otherwise. -/
theorem direct_shadow_ray (x o : Vec) (obj : Sphere) (flag : Bool) (g : Rng) :
    directedRadiance x o obj flag g =
      let n0 := (x - obj.p).normalize
      let n := if n0.dot o < 0 then n0 * (-1 : ℝ) else n0
      let ls := luminaireSample (sphereAt 7) g
      let x_l := ls.1
      let i := (x_l - x).normalize
      let x_hit := x + i * (intersect (Ray.mk x i) 0).1
      if (x_hit - x_l).dot (x_hit - x_l) < 1e-4 then
        ((emittedRadiance (sphereAt 7)).mult (obj.brdf.eval n o i) *
          (n.dot i * ls.2.1.dot (Vec.zero - i) /
            ((x_l - x).dot (x_l - x) * ls.2.2.1)), ls.2.2.2)
      else (Vec.zero, ls.2.2.2) := by
  rw [directedRadiance]
  simp only []
  split <;> try rfl
  split <;>
    · simp only [Prod.mk.injEq, and_true]
      ext <;> simp only [Vec.smul_x, Vec.smul_y, Vec.smul_z] <;> ring

/-- C5: the light sampler turns two uniform variates into the unit normal
`(sqrt(1−z²)·cos(2π·u2), sqrt(1−z²)·sin(2π·u2), z)` with `z = 2·u1 − 1`, the
surface point `center + n·radius`, and the constant density
`1/(4π·radius²)`. -/
theorem luminaire_uniform_sample (obj : Sphere) (g : Rng) :
    luminaireSample obj g =
      (obj.p +
        (⟨Real.sqrt (1 - (2 * g 0 - 1)^2) * Real.cos (2 * PI * g 1),
          Real.sqrt (1 - (2 * g 0 - 1)^2) * Real.sin (2 * PI * g 1),
          2 * g 0 - 1⟩ : Vec) * obj.rad,
       ⟨Real.sqrt (1 - (2 * g 0 - 1)^2) * Real.cos (2 * PI * g 1),
        Real.sqrt (1 - (2 * g 0 - 1)^2) * Real.sin (2 * PI * g 1),
        2 * g 0 - 1⟩,
       1 / (4 * PI * obj.rad^2),
       fun k => g (k + 2)) := by
  have h1 : (2 * g 0 - 1 : ℝ)^2 = (2 * g 0 - 1) * (2 * g 0 - 1) := by ring
  have h2 : (4 * PI * obj.rad^2 : ℝ) = 4 * PI * obj.rad * obj.rad := by ring
  simp only [luminaireSample, draw, h1, h2]

/-- C6: on a miss the radiance estimator returns the zero color as its
normal result; on a hit it returns the hit sphere's emitted radiance plus
the direct and indirect reflected radiance at the hit point. -/
theorem received_miss_or_hit (fuel : ℕ) (r : Ray) (depth : ℤ) (flag : Bool)
    (g : Rng) :
    receivedRadiance (fuel + 1) r depth flag g =
      if intersectHit r 0 then
        let pr := intersect r 0
        let obj := sphereAt pr.2
        let x := r.o + r.d * pr.1
        let o := (Vec.zero - r.d).normalize
        let dr := directedRadiance x o obj flag g
        let ir := indirectedRadiance fuel x o obj depth flag dr.2
        (emittedRadiance obj + (dr.1 + ir.1), ir.2)
      else (Vec.zero, g) := by
  rw [receivedRadiance]
  simp only [intersectHit]
  split <;> try rfl
  rw [reflectedRadiance]

/-- C4: the specular BRDF samples exactly the mirror direction
`2·(n·o)·n − o` with density `1`, and its `eval` returns `ks` scaled by
`1/(n·i)` precisely when `i` is component-wise equal to that mirror
direction, and the zero color otherwise. -/
theorem specular_mirror_spec (ks n o : Vec) :
    (∀ g : Rng, (BRDF.specular ks).sample n o g = (mirroredDirection n o, 1, g)) ∧
    mirroredDirection n o = n * ((2:ℝ) * n.dot o) - o ∧
    (∀ i : Vec, Vec.eqv i (mirroredDirection n o) ↔ i = mirroredDirection n o) ∧
    (∀ i : Vec, (BRDF.specular ks).eval n o i =
      if Vec.eqv i (mirroredDirection n o) then ks * (1 / n.dot i)
      else Vec.zero) := by
  refine ⟨fun g => rfl, ?_, fun i => ?_, fun i => rfl⟩
  · ext <;>
      simp only [mirroredDirection, Vec.sub_x, Vec.sub_y, Vec.sub_z,
        Vec.smul_x, Vec.smul_y, Vec.smul_z] <;> ring
  · constructor
    · intro h
      ext <;> simp [Vec.eqv] at h <;> tauto
    · intro h
      subst h
      exact ⟨rfl, rfl, rfl⟩

section FlagIndependence

theorem directedRadiance_flag (x o : Vec) (obj : Sphere) (b : Bool) (g : Rng) :
    directedRadiance x o obj b g = directedRadiance x o obj true g := rfl

theorem radiance_flag_canon (fuel : ℕ) :
    (∀ r depth g (b : Bool),
      receivedRadiance fuel r depth b g = receivedRadiance fuel r depth true g) ∧
    (∀ x o obj depth g (b : Bool),
      indirectedRadiance fuel x o obj depth b g =
        indirectedRadiance fuel x o obj depth true g) ∧
    (∀ x o obj depth g (b : Bool),
      reflectedRadiance fuel x o obj depth b g =
        reflectedRadiance fuel x o obj depth true g) := by
  induction fuel with
  | zero =>
      have hrec : ∀ r depth g (b : Bool),
          receivedRadiance 0 r depth b g = receivedRadiance 0 r depth true g := by
        intro r depth g b
        simp only [receivedRadiance]
      have hind : ∀ x o obj depth g (b : Bool),
          indirectedRadiance 0 x o obj depth b g =
            indirectedRadiance 0 x o obj depth true g := by
        intro x o obj depth g b
        simp only [indirectedRadiance, hrec]
      refine ⟨hrec, hind, ?_⟩
      intro x o obj depth g b
      simp only [reflectedRadiance, hind, directedRadiance_flag]
  | succ n ih =>
      obtain ⟨-, -, ihrefl⟩ := ih
      have hrec : ∀ r depth g (b : Bool),
          receivedRadiance (n+1) r depth b g =
            receivedRadiance (n+1) r depth true g := by
        intro r depth g b
        simp only [receivedRadiance, ihrefl]
      have hind : ∀ x o obj depth g (b : Bool),
          indirectedRadiance (n+1) x o obj depth b g =
            indirectedRadiance (n+1) x o obj depth true g := by
        intro x o obj depth g b
        simp only [indirectedRadiance, hrec]
      refine ⟨hrec, hind, ?_⟩
      intro x o obj depth g b
      simp only [reflectedRadiance, hind, directedRadiance_flag]

end FlagIndependence

/-- C9: the boolean flag threaded through `receivedRadiance`,
`reflectedRadiance`, `directedRadiance` and `indirectedRadiance` is never
read: with the RNG stream fixed, every one of the four functions returns the
same value for any two flag values. -/
theorem radiance_flag_independent (fuel : ℕ) (r : Ray) (x o : Vec)
    (obj : Sphere) (depth : ℤ) (g : Rng) (b₁ b₂ : Bool) :
    receivedRadiance fuel r depth b₁ g = receivedRadiance fuel r depth b₂ g ∧
    reflectedRadiance fuel x o obj depth b₁ g =
      reflectedRadiance fuel x o obj depth b₂ g ∧
    indirectedRadiance fuel x o obj depth b₁ g =
      indirectedRadiance fuel x o obj depth b₂ g ∧
    directedRadiance x o obj b₁ g = directedRadiance x o obj b₂ g := by
  obtain ⟨hrec, hind, hrefl⟩ := radiance_flag_canon fuel
  exact ⟨(hrec r depth g b₁).trans (hrec r depth g b₂).symm,
    (hrefl x o obj depth g b₁).trans (hrefl x o obj depth g b₂).symm,
    (hind x o obj depth g b₁).trans (hind x o obj depth g b₂).symm,
    (directedRadiance_flag x o obj b₁ g).trans
      (directedRadiance_flag x o obj b₂ g).symm⟩

/-- C7: the pixel encoding returns the integer nearest to
`clamp(x)^(1/2.2)·255` (within one half), so every channel value of the
output image lies in `[0, 255]`, and the image carries the textual header
`P3`, width `480`, height `360`, maximum value `255`. -/
theorem ppm_gamma_encoding :
    (∀ x : ℝ, |(toInt x : ℝ) - clamp x ^ ((1:ℝ)/2.2) * 255| ≤ 1/2 ∧
      0 ≤ toInt x ∧ toInt x ≤ 255) ∧
    ∀ c : List Vec,
      (outputPPM c).tag = "P3" ∧ (outputPPM c).width = 480 ∧
      (outputPPM c).height = 360 ∧ (outputPPM c).maxval = 255 ∧
      ∀ v ∈ (outputPPM c).pixels, 0 ≤ v ∧ v ≤ 255 := by
  have hc : ∀ x : ℝ, 0 ≤ clamp x ∧ clamp x ≤ 1 := by
    intro x
    unfold clamp
    split_ifs <;> constructor <;> linarith
  have hv : ∀ x : ℝ, 0 ≤ clamp x ^ ((1:ℝ)/2.2) ∧ clamp x ^ ((1:ℝ)/2.2) ≤ 1 := by
    intro x
    exact ⟨Real.rpow_nonneg (hc x).1 _,
      Real.rpow_le_one (hc x).1 (hc x).2 (by norm_num)⟩
  have key : ∀ x : ℝ, |(toInt x : ℝ) - clamp x ^ ((1:ℝ)/2.2) * 255| ≤ 1/2 ∧
      0 ≤ toInt x ∧ toInt x ≤ 255 := by
    intro x
    obtain ⟨h0, h1⟩ := hv x
    set v := clamp x ^ ((1:ℝ)/2.2) with hvdef
    have hfl : (toInt x : ℝ) ≤ v * 255 + 0.5 := by
      rw [toInt, ← hvdef]
      exact Int.floor_le _
    have hfg : v * 255 + 0.5 - 1 < (toInt x : ℝ) := by
      rw [toInt, ← hvdef]
      exact Int.sub_one_lt_floor _
    refine ⟨abs_le.mpr ⟨by linarith, by linarith⟩, ?_, ?_⟩
    · have : ((0:ℤ):ℝ) ≤ v * 255 + 0.5 := by push_cast; linarith
      rw [toInt, ← hvdef]
      exact Int.le_floor.mpr this
    · have : (v * 255 + 0.5 : ℝ) < ((256:ℤ):ℝ) := by push_cast; linarith
      have h2 : toInt x < 256 := by
        rw [toInt, ← hvdef]
        exact Int.floor_lt.mpr this
      omega
  refine ⟨key, fun c => ⟨rfl, rfl, rfl, rfl, ?_⟩⟩
  intro v hv0
  simp only [outputPPM, List.mem_flatMap, List.mem_cons, List.not_mem_nil,
    or_false] at hv0
  obtain ⟨a, -, h⟩ := hv0
  rcases h with h | h | h <;> subst h <;>
    exact ⟨(key _).2.1, (key _).2.2⟩

/-- Closed-form consequence of `ppm_gamma_encoding` at a concrete buffer:
the first channel of the pixel `(2, -1, 1/2)` is a member of the serialized
pixel list and lies in `[0, 255]`. -/
theorem ppm_gamma_encoding_witness :
    toInt 2 ∈ (outputPPM [⟨2, -1, 1/2⟩]).pixels ∧
    (0 ≤ toInt 2 ∧ toInt 2 ≤ 255) :=
  ⟨by simp [outputPPM],
    (ppm_gamma_encoding.2 [⟨2, -1, 1/2⟩]).2.2.2.2 (toInt 2)
      (by simp [outputPPM])⟩

/-- C8: with exactly one argument the per-subpixel sample count is that
argument run through `atoi` and divided by `4` (C truncating division),
with no validation at all: non-numeric input yields `0`, negative input a
negative count, and the program proceeds with that value; with no argument
the count is `1`. -/
theorem sample_count_unvalidated :
    samps none = 1 ∧
    (∀ s : String, samps (some s) = Int.tdiv (atoi s) 4) ∧
    samps (some "abc") = 0 ∧
    samps (some "-12") = -3 ∧
    samps (some "0") = 0 ∧
    samps (some "40") = 10 := by
  refine ⟨rfl, fun s => rfl, ?_, ?_, ?_, ?_⟩ <;> decide

section Intersection

theorem eps_pos : (0:ℝ) < eps := by norm_num [eps]

/-- Any value returned by `Sphere::intersect` is either `0` or exceeds the
self-intersection epsilon. -/
theorem sphere_intersect_zero_or_gt_eps (s : Sphere) (r : Ray) :
    s.intersect r = 0 ∨ eps < s.intersect r := by
  unfold Sphere.intersect
  simp only []
  split_ifs with h1 h2 h3
  · exact Or.inl rfl
  · exact Or.inr h2
  · exact Or.inr h3
  · exact Or.inl rfl

/-- For a unit-direction ray, membership in the specification's quadratic is
a square condition on the discriminant of `Sphere::intersect`. -/
theorem isRoot_iff_sq (s : Sphere) (r : Ray) (hd : r.d.dot r.d = 1) (t : ℝ) :
    isRoot s r t ↔
      (t - (s.p - r.o).dot r.d)^2 =
        ((s.p - r.o).dot r.d)^2 - (s.p - r.o).dot (s.p - r.o) + s.rad^2 := by
  have hd' : r.d.x * r.d.x + r.d.y * r.d.y + r.d.z * r.d.z = 1 := by
    simpa [Vec.dot] using hd
  unfold isRoot
  simp only [Vec.dot, Vec.sub_x, Vec.sub_y, Vec.sub_z]
  constructor <;> intro h
  · linear_combination h - t^2 * hd'
  · linear_combination h + t^2 * hd'

/-- For a unit-direction ray, `Sphere::intersect` returns the smallest root
of the quadratic that exceeds `eps`, and `0` exactly when no root exceeds
`eps`. -/
theorem sphere_intersect_char (s : Sphere) (r : Ray) (hd : r.d.dot r.d = 1) :
    (s.intersect r ≠ 0 →
      isRoot s r (s.intersect r) ∧ eps < s.intersect r ∧
      ∀ t, isRoot s r t → eps < t → s.intersect r ≤ t) ∧
    (s.intersect r = 0 → ∀ t, isRoot s r t → t ≤ eps) := by
  have hiff := isRoot_iff_sq s r hd
  set b := (s.p - r.o).dot r.d with hb
  set oo := (s.p - r.o).dot (s.p - r.o) with hoo
  unfold Sphere.intersect
  simp only [← hb, ← hoo]
  set det := b * b - oo + s.rad * s.rad with hdet
  have hdet_eq : b^2 - oo + s.rad^2 = det := by rw [hdet]; ring
  have hiff' : ∀ t, isRoot s r t ↔ (t - b)^2 = det := by
    intro t
    rw [hiff t, hdet_eq]
  split_ifs with h1 h2 h3
  · -- det < 0: no real roots, result 0
    refine ⟨fun hne => absurd rfl hne, fun _ t ht => ?_⟩
    exfalso
    have := (hiff' t).mp ht
    nlinarith [sq_nonneg (t - b)]
  · -- b - sqrt det > eps: smaller root returned
    have hdnn : (0:ℝ) ≤ det := le_of_not_lt h1
    have hsq : Real.sqrt det ^ 2 = det := Real.sq_sqrt hdnn
    have hdtnn : (0:ℝ) ≤ Real.sqrt det := Real.sqrt_nonneg det
    refine ⟨fun _ => ⟨?_, h2, ?_⟩, fun h0 => ?_⟩
    · exact (hiff' _).mpr (by linear_combination hsq)
    · intro t ht hteps
      have hfac : (t - (b - Real.sqrt det)) * (t - (b + Real.sqrt det)) = 0 := by
        linear_combination (hiff' t).mp ht - hsq
      rcases mul_eq_zero.mp hfac with h | h
      · linarith [sub_eq_zero.mp h]
      · have := sub_eq_zero.mp h
        linarith
    · exfalso
      rw [h0] at h2
      exact absurd h2 (by simpa using not_lt.mpr (le_of_lt eps_pos))
  · -- only the larger root exceeds eps
    have hdnn : (0:ℝ) ≤ det := le_of_not_lt h1
    have hsq : Real.sqrt det ^ 2 = det := Real.sq_sqrt hdnn
    refine ⟨fun _ => ⟨?_, h3, ?_⟩, fun h0 => ?_⟩
    · exact (hiff' _).mpr (by linear_combination hsq)
    · intro t ht hteps
      have hfac : (t - (b - Real.sqrt det)) * (t - (b + Real.sqrt det)) = 0 := by
        linear_combination (hiff' t).mp ht - hsq
      rcases mul_eq_zero.mp hfac with h | h
      · have := sub_eq_zero.mp h
        push_neg at h2
        linarith
      · linarith [sub_eq_zero.mp h]
    · exfalso
      rw [h0] at h3
      exact absurd h3 (by simpa using not_lt.mpr (le_of_lt eps_pos))
  · -- neither root exceeds eps: result 0, and indeed every root is ≤ eps
    have hdnn : (0:ℝ) ≤ det := le_of_not_lt h1
    have hsq : Real.sqrt det ^ 2 = det := Real.sq_sqrt hdnn
    refine ⟨fun hne => absurd rfl hne, fun _ t ht => ?_⟩
    have hfac : (t - (b - Real.sqrt det)) * (t - (b + Real.sqrt det)) = 0 := by
      linear_combination (hiff' t).mp ht - hsq
    push_neg at h2 h3
    rcases mul_eq_zero.mp hfac with h | h
    · linarith [sub_eq_zero.mp h]
    · linarith [sub_eq_zero.mp h]

end Intersection

/-- Invariant of the scan of the global `intersect`: the final distance is
bounded by the initial one and by every nonzero per-sphere distance among
the scanned indices, and the final state is either the initial state or the
distance/index pair of some scanned sphere that strictly improved it. -/
theorem intersectLoop_spec (r : Ray) (k : ℕ) :
    ∀ (t0 : ℝ) (j0 : ℕ),
      (intersectLoop r k t0 j0).1 ≤ t0 ∧
      (∀ i, i < k → (sphereAt i).intersect r ≠ 0 →
        (intersectLoop r k t0 j0).1 ≤ (sphereAt i).intersect r) ∧
      (((intersectLoop r k t0 j0).1 = t0 ∧ (intersectLoop r k t0 j0).2 = j0) ∨
        ∃ i, i < k ∧ (sphereAt i).intersect r ≠ 0 ∧
          (intersectLoop r k t0 j0).1 = (sphereAt i).intersect r ∧
          (intersectLoop r k t0 j0).2 = i ∧
          (intersectLoop r k t0 j0).1 < t0) := by
  induction k with
  | zero =>
      intro t0 j0
      exact ⟨le_refl t0, fun i hi => absurd hi (Nat.not_lt_zero i),
        Or.inl ⟨rfl, rfl⟩⟩
  | succ k ih =>
      intro t0 j0
      rw [intersectLoop]
      split_ifs with hcond
      · obtain ⟨ih1, ih2, ih3⟩ := ih ((sphereAt k).intersect r) k
        refine ⟨le_trans ih1 (le_of_lt hcond.2), ?_, ?_⟩
        · intro i hik hi0
          rcases Nat.lt_succ_iff_lt_or_eq.mp hik with h | h
          · exact ih2 i h hi0
          · subst h
            exact ih1
        · rcases ih3 with ⟨he1, he2⟩ | ⟨i, hik, hi0, he1, he2, hlt⟩
          · exact Or.inr ⟨k, Nat.lt_succ_self k, hcond.1, he1, he2, by
              rw [he1]; exact hcond.2⟩
          · exact Or.inr ⟨i, Nat.lt_succ_of_lt hik, hi0, he1, he2,
              lt_trans hlt hcond.2⟩
      · obtain ⟨ih1, ih2, ih3⟩ := ih t0 j0
        refine ⟨ih1, ?_, ?_⟩
        · intro i hik hi0
          rcases Nat.lt_succ_iff_lt_or_eq.mp hik with h | h
          · exact ih2 i h hi0
          · subst h
            have hnl : ¬ (sphereAt i).intersect r < t0 := fun hlt =>
              hcond ⟨hi0, hlt⟩
            exact le_trans ih1 (not_lt.mp hnl)
        · rcases ih3 with h | ⟨i, hik, rest⟩
          · exact Or.inl h
          · exact Or.inr ⟨i, Nat.lt_succ_of_lt hik, rest⟩

/-- C3 (amended): for every ray with unit-length direction, the per-sphere
test returns the smallest root of
`t²(d·d) + 2t(o−p)·d + (o−p)·(o−p) − r² = 0` that exceeds `eps = 1e-4`
(`0` when no such root exists), and the scene-level `intersect` returns the
minimum positive per-sphere distance over the eight spheres together with
that sphere's index, reporting a miss exactly when no sphere yields a
positive distance below `1e20`. -/
theorem intersect_unit_ray_spec (r : Ray) (hd : r.d.dot r.d = 1) (j0 : ℕ) :
    (∀ s : Sphere,
      (s.intersect r ≠ 0 →
        isRoot s r (s.intersect r) ∧ eps < s.intersect r ∧
        ∀ t, isRoot s r t → eps < t → s.intersect r ≤ t) ∧
      (s.intersect r = 0 → ∀ t, isRoot s r t → t ≤ eps)) ∧
    (intersectHit r j0 ↔
      ∃ i, i < 8 ∧ 0 < (sphereAt i).intersect r ∧
        (sphereAt i).intersect r < 1e20) ∧
    (intersectHit r j0 →
      ∃ i, i < 8 ∧ (intersect r j0).1 = (sphereAt i).intersect r ∧
        (intersect r j0).2 = i ∧
        ∀ j, j < 8 → 0 < (sphereAt j).intersect r →
          (intersect r j0).1 ≤ (sphereAt j).intersect r) := by
  obtain ⟨l1, l2, l3⟩ := intersectLoop_spec r 8 1e20 j0
  have hres : intersect r j0 = intersectLoop r 8 1e20 j0 := rfl
  have hpos : ∀ i, (sphereAt i).intersect r ≠ 0 → 0 < (sphereAt i).intersect r := by
    intro i hne
    rcases sphere_intersect_zero_or_gt_eps (sphereAt i) r with h | h
    · exact absurd h hne
    · exact lt_trans eps_pos h
  refine ⟨fun s => sphere_intersect_char s r hd, ?_, ?_⟩
  · constructor
    · intro hhit
      rw [intersectHit, hres] at hhit
      rcases l3 with ⟨he1, -⟩ | ⟨i, hi8, hi0, he1, -, -⟩
      · rw [he1] at hhit
        exact absurd hhit (lt_irrefl _)
      · exact ⟨i, hi8, hpos i hi0, he1 ▸ hhit⟩
    · rintro ⟨i, hi8, hipos, hilt⟩
      rw [intersectHit, hres]
      exact lt_of_le_of_lt (l2 i hi8 (ne_of_gt hipos)) hilt
  · intro hhit
    rw [intersectHit, hres] at hhit
    rcases l3 with ⟨he1, -⟩ | ⟨i, hi8, -, he1, he2, -⟩
    · rw [he1] at hhit
      exact absurd hhit (lt_irrefl _)
    · exact ⟨i, hi8, hres ▸ he1, hres ▸ he2,
        fun j hj8 hjpos => hres ▸ l2 j hj8 (ne_of_gt hjpos)⟩

/-- C3 fails as stated: for the non-unit direction `(0,0,2)` the per-sphere
test on the light sphere returns `5`, which is neither `0` nor a root of
the quadratic `t²(d·d) + 2t(o−p)·d + (o−p)·(o−p) − r² = 0` (whose roots
are `7.5` and `12.5` here), so the returned value is not the smallest root
exceeding `eps`. -/
theorem intersect_claim_counterexample :
    Sphere.intersect (sphereAt 7) ⟨⟨50, 70, 61.6⟩, ⟨0, 0, 2⟩⟩ = 5 ∧
    ¬ isRoot (sphereAt 7) ⟨⟨50, 70, 61.6⟩, ⟨0, 0, 2⟩⟩ 5 ∧
    isRoot (sphereAt 7) ⟨⟨50, 70, 61.6⟩, ⟨0, 0, 2⟩⟩ 7.5 ∧
    eps < 7.5 ∧ (5:ℝ) ≠ 0 := by
  have h7 : sphereAt 7 = (⟨⟨50, 70, 81.6⟩, ⟨50, 50, 50⟩, 5, blackSurf⟩ : Sphere) := rfl
  have h35 : Real.sqrt 1225 = 35 := by
    rw [show (1225:ℝ) = 35^2 by norm_num, Real.sqrt_sq (by norm_num : (0:ℝ) ≤ 35)]
  refine ⟨?_, ?_, ?_, by norm_num [eps], by norm_num⟩
  · rw [h7]
    unfold Sphere.intersect
    simp only [Vec.dot, Vec.sub_x, Vec.sub_y, Vec.sub_z]
    norm_num [eps, h35]
  · rw [h7]
    unfold isRoot
    simp only [Vec.dot, Vec.sub_x, Vec.sub_y, Vec.sub_z]
    norm_num
  · rw [h7]
    unfold isRoot
    simp only [Vec.dot, Vec.sub_x, Vec.sub_y, Vec.sub_z]
    norm_num

/-- Closed instance of `intersect_unit_ray_spec`: the ray from
`(50,70,61.6)` along the unit direction `(0,0,1)` satisfies the unit-length
hypothesis, and the characterization holds for it. -/
theorem intersect_unit_ray_spec_witness :
    (⟨0, 0, 1⟩ : Vec).dot ⟨0, 0, 1⟩ = 1 ∧
    ((∀ s : Sphere,
      (s.intersect ⟨⟨50, 70, 61.6⟩, ⟨0, 0, 1⟩⟩ ≠ 0 →
        isRoot s ⟨⟨50, 70, 61.6⟩, ⟨0, 0, 1⟩⟩
          (s.intersect ⟨⟨50, 70, 61.6⟩, ⟨0, 0, 1⟩⟩) ∧
        eps < s.intersect ⟨⟨50, 70, 61.6⟩, ⟨0, 0, 1⟩⟩ ∧
        ∀ t, isRoot s ⟨⟨50, 70, 61.6⟩, ⟨0, 0, 1⟩⟩ t → eps < t →
          s.intersect ⟨⟨50, 70, 61.6⟩, ⟨0, 0, 1⟩⟩ ≤ t) ∧
      (s.intersect ⟨⟨50, 70, 61.6⟩, ⟨0, 0, 1⟩⟩ = 0 →
        ∀ t, isRoot s ⟨⟨50, 70, 61.6⟩, ⟨0, 0, 1⟩⟩ t → t ≤ eps)) ∧
    (intersectHit ⟨⟨50, 70, 61.6⟩, ⟨0, 0, 1⟩⟩ 0 ↔
      ∃ i, i < 8 ∧
        0 < (sphereAt i).intersect ⟨⟨50, 70, 61.6⟩, ⟨0, 0, 1⟩⟩ ∧
        (sphereAt i).intersect ⟨⟨50, 70, 61.6⟩, ⟨0, 0, 1⟩⟩ < 1e20) ∧
    (intersectHit ⟨⟨50, 70, 61.6⟩, ⟨0, 0, 1⟩⟩ 0 →
      ∃ i, i < 8 ∧
        (intersect ⟨⟨50, 70, 61.6⟩, ⟨0, 0, 1⟩⟩ 0).1 =
          (sphereAt i).intersect ⟨⟨50, 70, 61.6⟩, ⟨0, 0, 1⟩⟩ ∧
        (intersect ⟨⟨50, 70, 61.6⟩, ⟨0, 0, 1⟩⟩ 0).2 = i ∧
        ∀ j, j < 8 →
          0 < (sphereAt j).intersect ⟨⟨50, 70, 61.6⟩, ⟨0, 0, 1⟩⟩ →
          (intersect ⟨⟨50, 70, 61.6⟩, ⟨0, 0, 1⟩⟩ 0).1 ≤
            (sphereAt j).intersect ⟨⟨50, 70, 61.6⟩, ⟨0, 0, 1⟩⟩)) :=
  ⟨by norm_num [Vec.dot],
    intersect_unit_ray_spec ⟨⟨50, 70, 61.6⟩, ⟨0, 0, 1⟩⟩
      (by norm_num [Vec.dot]) 0⟩


section DiffuseSampling

theorem Vec.dot_comm (a b : Vec) : a.dot b = b.dot a := by
  simp only [Vec.dot]
  ring

theorem Vec.dot_cross_self_right (n a : Vec) : n.dot (a.cross n) = 0 := by
  simp only [Vec.dot, Vec.cross]
  ring

theorem Vec.dot_cross_self_left (n u : Vec) : n.dot (n.cross u) = 0 := by
  simp only [Vec.dot, Vec.cross]
  ring

theorem Vec.dot_cross_self_mid (n u : Vec) : u.dot (n.cross u) = 0 := by
  simp only [Vec.dot, Vec.cross]
  ring

/-- Lagrange identity for the squared length of a cross product. -/
theorem Vec.cross_self_dot (n u : Vec) :
    (n.cross u).dot (n.cross u) = n.dot n * u.dot u - n.dot u ^ 2 := by
  simp only [Vec.dot, Vec.cross]
  ring

theorem Vec.normalize_self_dot (v : Vec) (h : v.dot v ≠ 0) :
    v.normalize.dot v.normalize = 1 := by
  have hnn : (0:ℝ) ≤ v.x * v.x + v.y * v.y + v.z * v.z := by
    nlinarith [mul_self_nonneg v.x, mul_self_nonneg v.y, mul_self_nonneg v.z]
  have hss : Real.sqrt (v.x * v.x + v.y * v.y + v.z * v.z) *
      Real.sqrt (v.x * v.x + v.y * v.y + v.z * v.z) =
      v.x * v.x + v.y * v.y + v.z * v.z := Real.mul_self_sqrt hnn
  have hne : Real.sqrt (v.x * v.x + v.y * v.y + v.z * v.z) ≠ 0 := by
    intro h0
    apply h
    have hz : v.x * v.x + v.y * v.y + v.z * v.z = 0 := by
      rw [← hss, h0]
      norm_num
    simpa [Vec.dot] using hz
  simp only [Vec.normalize, Vec.dot, Vec.smul_x, Vec.smul_y, Vec.smul_z]
  set s := Real.sqrt (v.x * v.x + v.y * v.y + v.z * v.z) with hs
  have expand : v.x * (1 / s) * (v.x * (1 / s)) + v.y * (1 / s) * (v.y * (1 / s)) +
      v.z * (1 / s) * (v.z * (1 / s)) =
      (v.x * v.x + v.y * v.y + v.z * v.z) * (1 / s * (1 / s)) := by ring
  rw [expand, ← hss]
  field_simp

theorem Vec.dot_normalize_right (w v : Vec) :
    w.dot v.normalize =
      w.dot v * (1 / Real.sqrt (v.x * v.x + v.y * v.y + v.z * v.z)) := by
  simp only [Vec.normalize, Vec.dot, Vec.smul_x, Vec.smul_y, Vec.smul_z]
  ring

/-- Dot-product expansion of a linear combination against itself. -/
theorem Vec.comb_self_dot (u v w : Vec) (a b c : ℝ) :
    (u * a + v * b + w * c).dot (u * a + v * b + w * c) =
      u.dot u * a^2 + v.dot v * b^2 + w.dot w * c^2 +
      2 * u.dot v * (a * b) + 2 * u.dot w * (a * c) + 2 * v.dot w * (b * c) := by
  simp only [Vec.dot, Vec.add_x, Vec.add_y, Vec.add_z, Vec.smul_x, Vec.smul_y,
    Vec.smul_z]
  ring

/-- Dot-product expansion of a vector against a linear combination. -/
theorem Vec.dot_comb (m u v w : Vec) (a b c : ℝ) :
    m.dot (u * a + v * b + w * c) = m.dot u * a + m.dot v * b + m.dot w * c := by
  simp only [Vec.dot, Vec.add_x, Vec.add_y, Vec.add_z, Vec.smul_x, Vec.smul_y,
    Vec.smul_z]
  ring

theorem Vec.smul_one (v : Vec) : v * (1:ℝ) = v := by
  ext <;> simp

/-- For a unit normal the local frame built by `createLocalCoord` is
orthonormal: the `|n.x| > 0.1` test guarantees the chosen auxiliary axis is
never parallel to the normal, so the normalized tangent is well defined. -/
theorem createLocalCoord_orthonormal (n : Vec) (hn : n.dot n = 1) :
    (createLocalCoord n).2.2 = n ∧
    (createLocalCoord n).1.dot (createLocalCoord n).1 = 1 ∧
    (createLocalCoord n).2.1.dot (createLocalCoord n).2.1 = 1 ∧
    n.dot (createLocalCoord n).1 = 0 ∧
    n.dot (createLocalCoord n).2.1 = 0 ∧
    (createLocalCoord n).1.dot (createLocalCoord n).2.1 = 0 := by
  have hn' : n.x * n.x + n.y * n.y + n.z * n.z = 1 := by simpa [Vec.dot] using hn
  simp only [createLocalCoord]
  split_ifs with hx
  · -- auxiliary axis (0,1,0), valid because |n.x| > 0.1
    have hcc : ((⟨0, 1, 0⟩ : Vec).cross n).dot ((⟨0, 1, 0⟩ : Vec).cross n) ≠ 0 := by
      have hval : ((⟨0, 1, 0⟩ : Vec).cross n).dot ((⟨0, 1, 0⟩ : Vec).cross n) =
          n.z * n.z + n.x * n.x := by
        simp only [Vec.dot, Vec.cross]
        ring
      rw [hval]
      nlinarith [sq_abs n.x, abs_nonneg n.x]
    have huu := Vec.normalize_self_dot _ hcc
    have hnu : n.dot ((⟨0, 1, 0⟩ : Vec).cross n).normalize = 0 := by
      rw [Vec.dot_normalize_right]
      rw [Vec.dot_cross_self_right]
      ring
    refine ⟨trivial, huu, ?_, hnu, Vec.dot_cross_self_left n _,
      Vec.dot_cross_self_mid n _⟩
    rw [Vec.cross_self_dot, hn, huu, hnu]
    norm_num
  · -- auxiliary axis (1,0,0), valid because |n.x| ≤ 0.1 and n is unit
    have hcc : ((⟨1, 0, 0⟩ : Vec).cross n).dot ((⟨1, 0, 0⟩ : Vec).cross n) ≠ 0 := by
      have hval : ((⟨1, 0, 0⟩ : Vec).cross n).dot ((⟨1, 0, 0⟩ : Vec).cross n) =
          n.z * n.z + n.y * n.y := by
        simp only [Vec.dot, Vec.cross]
        ring
      rw [hval]
      have habs : |n.x| ≤ 0.1 := le_of_not_lt hx
      nlinarith [sq_abs n.x, abs_nonneg n.x]
    have huu := Vec.normalize_self_dot _ hcc
    have hnu : n.dot ((⟨1, 0, 0⟩ : Vec).cross n).normalize = 0 := by
      rw [Vec.dot_normalize_right]
      rw [Vec.dot_cross_self_right]
      ring
    refine ⟨trivial, huu, ?_, hnu, Vec.dot_cross_self_left n _,
      Vec.dot_cross_self_mid n _⟩
    rw [Vec.cross_self_dot, hn, huu, hnu]
    norm_num

end DiffuseSampling

/-- C10: for a unit normal and uniform variates `u1, u2 ∈ [0,1)`, the
diffuse sampler returns (in exact real arithmetic) a unit direction `i` in
the closed hemisphere around `n` with `n·i = sqrt(u1) ≥ 0`, and the density
`(n·i)/π`, which lies in `[0, 1/π]` and equals `0` exactly at `u1 = 0`. -/
theorem diffuse_sample_cosine (kd n o : Vec) (g : Rng) (hn : n.dot n = 1)
    (h0 : 0 ≤ g 0) (h1 : g 0 < 1) (h2 : 0 ≤ g 1) (h3 : g 1 < 1) :
    ((BRDF.diffuse kd).sample n o g).1.dot
      ((BRDF.diffuse kd).sample n o g).1 = 1 ∧
    n.dot ((BRDF.diffuse kd).sample n o g).1 = Real.sqrt (g 0) ∧
    0 ≤ n.dot ((BRDF.diffuse kd).sample n o g).1 ∧
    ((BRDF.diffuse kd).sample n o g).2.1 =
      n.dot ((BRDF.diffuse kd).sample n o g).1 / PI ∧
    0 ≤ ((BRDF.diffuse kd).sample n o g).2.1 ∧
    ((BRDF.diffuse kd).sample n o g).2.1 ≤ 1 / PI ∧
    (g 0 = 0 → ((BRDF.diffuse kd).sample n o g).2.1 = 0) := by
  obtain ⟨hw, huu, hvv, hnu, hnv, huv⟩ := createLocalCoord_orthonormal n hn
  have hPI : (0:ℝ) < PI := by norm_num [PI]
  set z := Real.sqrt (g 0) with hzdef
  set r := Real.sqrt (1 - z * z) with hrdef
  set cphi := Real.cos (2 * PI * g 1) with hcdef
  set sphi := Real.sin (2 * PI * g 1) with hsdef
  set u := (createLocalCoord n).1 with hudef
  set v := (createLocalCoord n).2.1 with hvdef2
  set w := (createLocalCoord n).2.2 with hwdef
  set i0 := u * (r * cphi) + v * (r * sphi) + w * z with hi0def
  have hbody : (BRDF.diffuse kd).sample n o g =
      (i0.normalize, n.dot i0.normalize / PI, fun k => g (k + 2)) := rfl
  rw [hbody]
  dsimp only []
  have hz0 : 0 ≤ z := Real.sqrt_nonneg _
  have hzz : z * z = g 0 := Real.mul_self_sqrt h0
  have hrr : r * r = 1 - z * z := Real.mul_self_sqrt (by rw [hzz]; linarith)
  have htrig : cphi ^ 2 + sphi ^ 2 = 1 := Real.cos_sq_add_sin_sq _
  have hi0 : i0.dot i0 = 1 := by
    rw [hi0def, Vec.comb_self_dot, hw, huu, hvv, hn, huv, Vec.dot_comm u n,
      hnu, Vec.dot_comm v n, hnv]
    have hsumsq : (r * cphi)^2 + (r * sphi)^2 + z^2 = 1 := by
      have e1 : (r * cphi)^2 + (r * sphi)^2 = r * r * (cphi^2 + sphi^2) := by
        ring
      rw [e1, htrig, mul_one, hrr]
      ring
    linarith
  have hni0 : n.dot i0 = z := by
    rw [hi0def, Vec.dot_comb, hnu, hnv, hw, hn]
    ring
  have hsum : i0.x * i0.x + i0.y * i0.y + i0.z * i0.z = 1 := by
    simpa [Vec.dot] using hi0
  have hnormi0 : i0.normalize = i0 := by
    have hrfl : i0.normalize =
        i0 * (1 / Real.sqrt (i0.x * i0.x + i0.y * i0.y + i0.z * i0.z)) := rfl
    rw [hrfl, hsum, Real.sqrt_one]
    norm_num [Vec.smul_one]
  refine ⟨?_, ?_, ?_, rfl, ?_, ?_, ?_⟩
  · rw [hnormi0]
    exact hi0
  · rw [hnormi0]
    exact hni0
  · rw [hnormi0, hni0]
    exact hz0
  · rw [hnormi0, hni0]
    exact div_nonneg hz0 (le_of_lt hPI)
  · rw [hnormi0, hni0]
    have hz1 : z ≤ 1 := Real.sqrt_le_one.mpr (le_of_lt h1)
    exact (div_le_div_iff_of_pos_right hPI).mpr hz1
  · intro hg0
    rw [hnormi0, hni0, hzdef, hg0, Real.sqrt_zero]
    simp

/-- Closed instance of `diffuse_sample_cosine`: the normal `(0,0,1)` is
unit, the variates of the all-zeros stream lie in `[0,1)`, and the sampled
direction and density satisfy the characterization (here with `u1 = 0`, so
the returned density is exactly `0`). -/
theorem diffuse_sample_cosine_witness :
    ((⟨0, 0, 1⟩ : Vec).dot ⟨0, 0, 1⟩ = 1 ∧ (0:ℝ) ≤ 0 ∧ (0:ℝ) < 1) ∧
    (((BRDF.diffuse ⟨0, 0, 0⟩).sample ⟨0, 0, 1⟩ ⟨0, 0, 0⟩
        (fun _ => 0 : Rng)).1.dot
      ((BRDF.diffuse ⟨0, 0, 0⟩).sample ⟨0, 0, 1⟩ ⟨0, 0, 0⟩
        (fun _ => 0 : Rng)).1 = 1 ∧
    (⟨0, 0, 1⟩ : Vec).dot
      ((BRDF.diffuse ⟨0, 0, 0⟩).sample ⟨0, 0, 1⟩ ⟨0, 0, 0⟩
        (fun _ => 0 : Rng)).1 = Real.sqrt 0 ∧
    0 ≤ (⟨0, 0, 1⟩ : Vec).dot
      ((BRDF.diffuse ⟨0, 0, 0⟩).sample ⟨0, 0, 1⟩ ⟨0, 0, 0⟩
        (fun _ => 0 : Rng)).1 ∧
    ((BRDF.diffuse ⟨0, 0, 0⟩).sample ⟨0, 0, 1⟩ ⟨0, 0, 0⟩
        (fun _ => 0 : Rng)).2.1 =
      (⟨0, 0, 1⟩ : Vec).dot
        ((BRDF.diffuse ⟨0, 0, 0⟩).sample ⟨0, 0, 1⟩ ⟨0, 0, 0⟩
          (fun _ => 0 : Rng)).1 / PI ∧
    0 ≤ ((BRDF.diffuse ⟨0, 0, 0⟩).sample ⟨0, 0, 1⟩ ⟨0, 0, 0⟩
        (fun _ => 0 : Rng)).2.1 ∧
    ((BRDF.diffuse ⟨0, 0, 0⟩).sample ⟨0, 0, 1⟩ ⟨0, 0, 0⟩
        (fun _ => 0 : Rng)).2.1 ≤ 1 / PI ∧
    ((0:ℝ) = 0 →
      ((BRDF.diffuse ⟨0, 0, 0⟩).sample ⟨0, 0, 1⟩ ⟨0, 0, 0⟩
        (fun _ => 0 : Rng)).2.1 = 0)) :=
  ⟨⟨by norm_num [Vec.dot], le_refl 0, by norm_num⟩,
    diffuse_sample_cosine ⟨0, 0, 0⟩ ⟨0, 0, 1⟩ ⟨0, 0, 0⟩ (fun _ => 0 : Rng)
      (by norm_num [Vec.dot]) (le_refl 0) (by norm_num) (le_refl 0)
      (by norm_num)⟩
